import Mathlib

/-!
Verification of the conversation-orchestration core of the rodmap repository.

The Lean definitions below are a shallow embedding of the Python source:

* src/api/core/state.py : merge_history_with_reset, _has_pending_tool_calls
* src/api/graph.py      : _validate_and_filter_history, custom_tool_wrapper,
                          finalize_node, should_continue
* src/api/llm/classifier.py : classify_intent

LangChain messages (SystemMessage, HumanMessage, AIMessage, ToolMessage)
are embedded as the tagged union Msg.  An AIMessage whose tool_calls
attribute is None and one whose tool_calls is the empty list behave
identically everywhere in the source (only truthiness is tested), so both
map to an empty tool_calls list.  ToolMessage contents are JSON strings in
the source; the fields the core reads (error, message, tool_name,
error_type, content, value) are embedded as the structure ToolContent, and
the per-document payload fields read by finalize_node (source, title,
page_number, url) as the structure Doc.
-/

namespace Rodmap

/-- one retrieved document inside a tool-result payload (the keys of the
JSON dictionaries that finalize_node reads). -/
structure Doc where
  source : Option String
  title : Option String
  page_number : Option Nat
  url : Option String
deriving DecidableEq, Repr

/-- the parsed content of a ToolMessage: the JSON keys the core reads or
writes.  text stands for the content key. -/
structure ToolContent where
  err : Option String
  message : Option String
  tool_name : Option String
  error_type : Option String
  text : String
  value : List Doc
deriving DecidableEq, Repr

/-- the args field of a tool call as consumed by custom_tool_wrapper: a
dictionary (with the three keys the normalizer consults), a bare string,
or anything else. -/
inductive ToolArgs where
  | dict (query : Option String) (text : Option String) (input : Option String)
  | str (s : String)
  | other
deriving DecidableEq, Repr

/-- one entry of an AIMessage tool_calls list.  A missing or None id maps
to the empty string (the source only ever tests truthiness of the id). -/
structure ToolCall where
  id : String
  name : String
  args : ToolArgs
deriving DecidableEq, Repr

/-- LangChain message union as used by the orchestration core. -/
inductive Msg where
  | system (content : String)
  | human (content : String)
  | assistant (content : String) (tool_calls : List ToolCall)
  | toolResult (content : ToolContent) (tool_call_id : String)
deriving DecidableEq, Repr

/-- isinstance(msg, HumanMessage) -/
def Msg.isHuman : Msg → Bool
  | .human _ => true
  | _ => false

/-- isinstance(msg, ToolMessage) -/
def Msg.isToolResult : Msg → Bool
  | .toolResult _ _ => true
  | _ => false

/-- the content attribute of a System, Human or Assistant message. -/
def Msg.contentText : Msg → String
  | .system c => c
  | .human c => c
  | .assistant c _ => c
  | .toolResult _ _ => ""

/-- Python str.strip with no arguments: remove leading and trailing
whitespace. -/
def pyStrip (s : String) : String :=
  String.mk (((s.toList.dropWhile Char.isWhitespace).reverse.dropWhile
    Char.isWhitespace).reverse)

/-- isinstance(msg, AIMessage) and msg.tool_calls (truthiness). -/
def Msg.isAssistantWithCalls : Msg → Bool
  | .assistant _ tcs => !tcs.isEmpty
  | _ => false

/-- Embeds _has_pending_tool_calls from src/api/core/state.py: the last
AIMessage with non-empty tool_calls is located; it is pending when one of
its non-empty call ids has no ToolMessage with that tool_call_id anywhere
in the history. -/
def _has_pending_tool_calls (history : List Msg) : Bool :=
  match history.reverse.find? Msg.isAssistantWithCalls with
  | some (.assistant _ tcs) =>
      let tool_call_ids := (tcs.filter (fun tc => tc.id ≠ "")).map (fun tc => tc.id)
      if tool_call_ids = [] then false
      else
        let tool_message_ids := history.filterMap (fun m => match m with
          | .toolResult _ tcid => if tcid ≠ "" then some tcid else none
          | _ => none)
        tool_call_ids.any (fun id => !(tool_message_ids.contains id))
  | _ => false

/-- Embeds merge_history_with_reset from src/api/core/state.py (the
reducer of the history channel). -/
def merge_history_with_reset (left right : List Msg) : List Msg :=
  if right = [] then left
  else
    match right.find? Msg.isHuman, (left.reverse.find? Msg.isHuman) with
    | none, _ => left ++ right
    | some _, none => right
    | some fh, some lh =>
      if pyStrip fh.contentText = pyStrip lh.contentText then left ++ right
      else if _has_pending_tool_calls left then left ++ right
      else right

/-- Modelled from the spec: the premise of the reset-safety claim, in the
claim's own words — some Assistant message has a ToolCall whose id has no
matching ToolResult anywhere in the history. -/
def specUnmatchedToolCall (history : List Msg) : Bool :=
  history.any (fun m => match m with
    | .assistant _ tcs => tcs.any (fun tc =>
        !(history.any (fun m2 => match m2 with
          | .toolResult _ tcid => tcid = tc.id
          | _ => false)))
    | _ => false)

/-- the non-empty ids of a tool_calls list, in order (the list
comprehension building tool_call_ids in _validate_and_filter_history). -/
def requestedIds (tcs : List ToolCall) : List String :=
  (tcs.filter (fun tc => tc.id ≠ "")).map (fun tc => tc.id)

/-- content of the first ToolMessage whose (non-empty) tool_call_id equals
id: the tool_messages_by_id dictionary of _validate_and_filter_history,
which stores the first ToolMessage found for each truthy id. -/
def lookupToolMsg (history : List Msg) (id : String) : Option ToolContent :=
  history.findSome? (fun m => match m with
    | .toolResult c tcid => if tcid ≠ "" ∧ tcid = id then some c else none
    | _ => none)

/-- payload of the error ToolMessage synthesized by
_validate_and_filter_history when no stored ToolMessage matches an id. -/
def missingToolContent : ToolContent :=
  { err := some "ToolMessage faltante"
  , message := some "No se encontro el ToolMessage correspondiente"
  , tool_name := none
  , error_type := none
  , text := "Error al recuperar informacion de la herramienta."
  , value := [] }

/-- content that _validate_and_filter_history emits for a given call id:
a copy of the first stored ToolMessage, or the synthesized error. -/
def resContent (history : List Msg) (id : String) : ToolContent :=
  match lookupToolMsg history id with
  | some c => c
  | none => missingToolContent

/-- the ToolMessage that _validate_and_filter_history emits for a call id
(a copy keeps only content and tool_call_id, which is the whole of our
embedded ToolMessage). -/
def emitResult (history : List Msg) (id : String) : Msg :=
  .toolResult (resContent history id) id

theorem length_dropWhile_le {α : Type} (p : α → Bool) (l : List α) :
    (l.dropWhile p).length ≤ l.length := by
  induction l with
  | nil => simp
  | cons a l ih =>
      by_cases hp : p a
      · simp [List.dropWhile_cons, hp]
        omega
      · simp [List.dropWhile_cons, hp]

/-- main loop of _validate_and_filter_history: orig is the whole input
history (searched for stored ToolMessages), the second argument is the
part not yet walked.  An AIMessage with truthy tool_calls is emitted
followed by one ToolMessage per non-empty call id, and the ToolMessages
immediately after it in the input are skipped; other ToolMessages are
dropped; all remaining messages are emitted unchanged. -/
def validateLoop (orig : List Msg) : List Msg → List Msg
  | [] => []
  | .assistant c tcs :: rest =>
      if tcs.isEmpty then .assistant c tcs :: validateLoop orig rest
      else .assistant c tcs ::
        ((requestedIds tcs).map (emitResult orig)
          ++ validateLoop orig (rest.dropWhile Msg.isToolResult))
  | .toolResult _ _ :: rest => validateLoop orig rest
  | m :: rest => m :: validateLoop orig rest
termination_by l => l.length
decreasing_by
  all_goals simp_wf
  · have := length_dropWhile_le Msg.isToolResult rest
    omega

/-- Embeds _validate_and_filter_history from src/api/graph.py. -/
def _validate_and_filter_history (history : List Msg) : List Msg :=
  validateLoop history history

/-- consume, from the front of a message list, one ToolResult per id in
the given order; returns the remainder, or none on any mismatch. -/
def consumeResults : List String → List Msg → Option (List Msg)
  | [], rest => some rest
  | id :: ids, .toolResult _ tcid :: rest =>
      if tcid = id then consumeResults ids rest else none
  | _ :: _, _ => none

/-- true when the list does not start with a ToolResult. -/
def headNotTR : List Msg → Bool
  | .toolResult _ _ :: _ => false
  | _ => true

theorem consumeResults_length :
    ∀ (ids : List String) (l l2 : List Msg),
      consumeResults ids l = some l2 → l2.length ≤ l.length := by
  intro ids
  induction ids with
  | nil =>
      intro l l2 h
      simp [consumeResults] at h
      simp [h]
  | cons id ids ih =>
      intro l l2 h
      match l with
      | [] => simp [consumeResults] at h
      | .system _ :: rest => simp [consumeResults] at h
      | .human _ :: rest => simp [consumeResults] at h
      | .assistant _ _ :: rest => simp [consumeResults] at h
      | .toolResult c tcid :: rest =>
          by_cases htc : tcid = id
          · simp [consumeResults, htc] at h
            have := ih rest l2 h
            simp
            omega
          · simp [consumeResults, htc] at h

/-- decidable statement of the pairing invariant: every Assistant message
carrying tool calls is immediately followed by exactly one ToolResult per
requested (non-empty) call id, in the order the ids appear, with nothing
in between and no further ToolResult directly after the block. -/
def checkPairing : List Msg → Bool
  | [] => true
  | .assistant _ tcs :: rest =>
      if tcs.isEmpty then checkPairing rest
      else
        match hcr : consumeResults (requestedIds tcs) rest with
        | some rest2 => headNotTR rest2 && checkPairing rest2
        | none => false
  | _ :: rest => checkPairing rest
termination_by l => l.length
decreasing_by
  all_goals simp_wf
  · have := consumeResults_length (requestedIds tcs) rest rest2 hcr
    omega

/-- one element of the sources list built by finalize_node. -/
structure Citation where
  title : String
  page : Option Nat
  url : String
deriving DecidableEq, Repr

/-- fixed fallback answer of finalize_node. -/
def DEFAULT_ANSWER : String :=
  "No pude generar una respuesta para tu pregunta. Por favor, intenta reformularla."

/-- response_text extraction of finalize_node: content of the last
AIMessage whose tool_calls is None or empty; the fallback string when none
exists or the content is empty or whitespace-only. -/
def answerText (history : List Msg) : String :=
  let last_ai := history.reverse.find? (fun m => match m with
    | .assistant _ tcs => tcs.isEmpty
    | _ => false)
  let t := match last_ai with
    | some (.assistant c _) => c
    | _ => ""
  if pyStrip t = "" then DEFAULT_ANSWER else t

/-- Python x or y for an optional string x: y when x is missing or empty. -/
def orElseStr (a : Option String) (b : String) : String :=
  match a with
  | some s => if s = "" then b else s
  | none => b

/-- source_name = doc.get("source") or doc.get("title") or "" -/
def sourceNameOf (d : Doc) : String :=
  orElseStr d.source (orElseStr d.title "")

/-- last field of a Python split on the separator: the part after the
last occurrence of sep (the whole list when sep does not occur). -/
def afterLastSep (sep : Char) (s : List Char) : List Char :=
  (s.reverse.takeWhile (fun c => c ≠ sep)).reverse

/-- worker for removeAll: the fuel, at least the length of the scanned
list, pays one unit per consumed character and keeps the recursion
structural. -/
def removeAllGo (p : Char) (ps : List Char) : Nat → List Char → List Char
  | _, [] => []
  | 0, s => s
  | fuel + 1, c :: rest =>
      if (p :: ps).isPrefixOf (c :: rest) then removeAllGo p ps fuel (rest.drop ps.length)
      else c :: removeAllGo p ps fuel rest

/-- Python str.replace(pat, ""): delete every non-overlapping occurrence
of pat, scanning left to right. -/
def removeAll : List Char → List Char → List Char
  | [], s => s
  | p :: ps, s => removeAllGo p ps s.length s

/-- clean_name in finalize_node: basename after backslash and slash
splits, with every ".pdf" and ".docx" occurrence removed. -/
def cleanName (source_name : String) : String :=
  String.mk (removeAll ".docx".toList (removeAll ".pdf".toList
    (afterLastSep '/' (afterLastSep '\\' source_name.toList))))

/-- Python str.lower. -/
def lowerStr (s : String) : String := String.mk (s.toList.map Char.toLower)

/-- Python substring test: needle in hay. -/
def listContainsSub (needle : List Char) : List Char → Bool
  | [] => needle.isEmpty
  | c :: rest => needle.isPrefixOf (c :: rest) || listContainsSub needle rest

/-- clean_name.lower() in response_text.lower() -/
def strContains (hay needle : String) : Bool :=
  listContainsSub needle.toList hay.toList

/-- Python rendering of the page number inside the dedup key f-string. -/
def pageKeyStr : Option Nat → String
  | some n => toString n
  | none => "None"

/-- dedup key f-string of finalize_node. -/
def sourceKey (clean_name : String) (page : Option Nat) : String :=
  clean_name ++ "-" ++ pageKeyStr page

/-- the citation dictionary appended by finalize_node for one admitted
document. -/
def mkCitation (clean_name : String) (d : Doc) : Citation :=
  { title := clean_name ++ ".pdf"
  , page := d.page_number
  , url := orElseStr d.url "#" }

/-- inner loop of the source extraction: walk the documents of one
ToolMessage payload, admitting a citation when the cleaned name occurs
case-insensitively in the answer and its key is unseen. -/
def addDocs (answer : String) : List Doc → List String → List Citation →
    List String × List Citation
  | [], seen, acc => (seen, acc)
  | d :: rest, seen, acc =>
      let clean_name := cleanName (sourceNameOf d)
      if strContains (lowerStr answer) (lowerStr clean_name) then
        let key := sourceKey clean_name d.page_number
        if seen.contains key then addDocs answer rest seen acc
        else addDocs answer rest (key :: seen) (acc ++ [mkCitation clean_name d])
      else addDocs answer rest seen acc

/-- outer loop of the source extraction: walk the reversed history,
collecting from ToolMessages, stopping at the first HumanMessage. -/
def collectSources (answer : String) : List Msg → List String → List Citation →
    List Citation
  | [], _, acc => acc
  | m :: rest, seen, acc =>
      match m with
      | .toolResult c _ =>
          let sa := addDocs answer c.value seen acc
          collectSources answer rest sa.1 sa.2
      | .human _ => acc
      | _ => collectSources answer rest seen acc

/-- the sources list computed by finalize_node. -/
def finalizeSources (history : List Msg) : List Citation :=
  collectSources (answerText history) history.reverse [] []

/-- the conversation state channels read or written by the embedded nodes
(GraphState in src/api/core/state.py). -/
structure GraphState where
  input : String
  intention : Option String
  context : String
  sources : List Citation
  response : String
  history : List Msg

/-- Embeds should_continue from src/api/graph.py: route to the tools node
iff the last message has truthy tool_calls (only an AIMessage has the
attribute), otherwise to finalize. -/
def should_continue (state : GraphState) : String :=
  match state.history.getLast? with
  | some (.assistant _ tcs) => if !tcs.isEmpty then "tools" else "finalize"
  | _ => "finalize"

/-- intent labels of src/api/llm/classifier.py. -/
inductive IntentionEnum where
  | SALUDO
  | PREGUNTA_TECNICA
  | FUERA_DE_DOMINIO
deriving DecidableEq, Repr

/-- structured output of the classification call. -/
structure IntentionResponse where
  intention : IntentionEnum
  reasoning : String
deriving DecidableEq, Repr

/-- Embeds classify_intent from src/api/llm/classifier.py.  The awaited
structured-output call on the external generation service is passed in as
its outcome: a valid IntentionResponse, or the raised exception text. -/
def classify_intent (outcome : Except String IntentionResponse) : IntentionResponse :=
  match outcome with
  | .ok result => result
  | .error _ =>
      { intention := .PREGUNTA_TECNICA
      , reasoning := "Fallback por error en el servicio de clasificacion." }

/-- a raised Python exception at the tool-invocation boundary: class name
and message. -/
structure ExcInfo where
  ename : String
  emsg : String
deriving DecidableEq, Repr

/-- Python s[:n]. -/
def strTake (s : String) (n : Nat) : String := String.mk (s.toList.take n)

/-- error payload created by custom_tool_wrapper for a failed call
(validation errors carry ValueError as their class; the free texts of the
source are carried without their surrounding quotes). -/
def execErrorContent (e : ExcInfo) (tname : String) : ToolContent :=
  { err := some "Error ejecutando herramienta"
  , message := some (strTake e.emsg 500)
  , tool_name := some tname
  , error_type := some e.ename
  , text := "No se pudo ejecutar la herramienta " ++ tname ++
      ". Por favor, intenta reformular tu pregunta."
  , value := [] }

/-- payload of a validation failure, raised as ValueError in the source. -/
def valErrorContent (emsg tname : String) : ToolContent :=
  execErrorContent { ename := "ValueError", emsg := emsg } tname

/-- payload of the defensive catch-all ToolMessages added for call ids
left unanswered after the per-call loop. -/
def catchAllContent : ToolContent :=
  { err := some "Error ejecutando herramienta"
  , message := some "No se pudo procesar esta herramienta"
  , tool_name := none
  , error_type := none
  , text := "No se pudo ejecutar la herramienta. Por favor, intenta reformular tu pregunta."
  , value := [] }

/-- tool_call_id given to an error ToolMessage: the originating id when
truthy, otherwise the synthetic error index tag. -/
def errTag (id : String) (k : Nat) : String :=
  if id ≠ "" then id else "error_" ++ toString k

/-- argument normalization of custom_tool_wrapper for
search_technical_docs: coerce the args to a single query string or fail
as the source raises ValueError. -/
def normalizeQuery : ToolArgs → Except String String
  | .dict q t inp =>
      let q0 := q.getD ""
      if q0 ≠ "" then .ok q0
      else
        let q2 := q.getD (t.getD (inp.getD ""))
        if q2 ≠ "" then .ok q2
        else .error "Argumento query no encontrado en tool_args"
  | .str s => .ok s
  | .other => .error "Argumentos invalidos para search_technical_docs"

/-- one iteration of the per-call loop of custom_tool_wrapper: k is the
number of ToolMessages already emitted (each earlier call emitted exactly
one), invoke is the awaited external retrieval tool.  Every failure path
returns an error ToolMessage instead of raising. -/
def processToolCall (invoke : String → Except ExcInfo ToolContent) (k : Nat)
    (tc : ToolCall) : Msg :=
  if tc.name = "" then
    .toolResult (valErrorContent "Tool name esta vacio" tc.name) (errTag tc.id k)
  else if tc.id = "" then
    .toolResult (valErrorContent "Tool call ID esta vacio" tc.name) (errTag tc.id k)
  else if tc.name ≠ "search_technical_docs" then
    .toolResult (valErrorContent "Herramienta no encontrada" tc.name) (errTag tc.id k)
  else
    match normalizeQuery tc.args with
    | .error e => .toolResult (valErrorContent e tc.name) (errTag tc.id k)
    | .ok query =>
        match invoke query with
        | .error einfo => .toolResult (execErrorContent einfo tc.name) (errTag tc.id k)
        | .ok result => .toolResult result tc.id

/-- the truthy tool_call_ids present among emitted ToolMessages. -/
def emittedIds (tms : List Msg) : List String :=
  tms.filterMap (fun m => match m with
    | .toolResult _ tcid => if tcid ≠ "" then some tcid else none
    | _ => none)

/-- Embeds custom_tool_wrapper from src/api/graph.py (its non-raising
normal path; the surrounding Python-level catch-all cannot fire in this
embedding because every step is total).  The external retrieval call is
passed in as the invoke oracle.  Serialization keeps the payload: a dict
result is dumped as is, and the embedded ToolContent stands for the
parsed dump. -/
def custom_tool_wrapper (invoke : String → Except ExcInfo ToolContent)
    (history : List Msg) : List Msg :=
  match history.getLast? with
  | some (.assistant _ tcs) =>
      if tcs.isEmpty then history
      else
        let tool_messages := tcs.enum.map (fun p => processToolCall invoke p.1 p.2)
        let tool_call_ids := (tcs.filter (fun tc => tc.id ≠ "")).map (fun tc => tc.id)
        let missing_ids := tool_call_ids.filter
          (fun id => !((emittedIds tool_messages).contains id))
        let extra := (tcs.filter (fun tc => missing_ids.contains tc.id)).map
          (fun tc => Msg.toolResult catchAllContent tc.id)
        history ++ tool_messages ++ extra
  | _ => history

/-- the dictionary returned by finalize_node. -/
structure FinalizeResult where
  response : String
  sources : List Citation
  history : List Msg
deriving Repr

/-- Embeds finalize_node from src/api/graph.py: extract the answer text
and the turn-scoped sources, and hand the history back unchanged. -/
def finalize_node (state : GraphState) : FinalizeResult :=
  { response := answerText state.history
  , sources := finalizeSources state.history
  , history := state.history }

/-- messages that _validate_and_filter_history copies through one at a
time: System, Human and Assistant without tool calls. -/
def Msg.isPlain : Msg → Bool
  | .system _ => true
  | .human _ => true
  | .assistant _ tcs => tcs.isEmpty
  | .toolResult _ _ => false

/-- shape of the outputs of _validate_and_filter_history on input h: a
sequence of blocks, each either a plain message or a tool-calling
Assistant message followed by exactly the results emitted for its
requested ids. -/
inductive VShape (h : List Msg) : List Msg → Prop where
  | nil : VShape h []
  | block (c : String) (tcs : List ToolCall) (l : List Msg)
      (hne : tcs.isEmpty = false) (hl : VShape h l) :
      VShape h (Msg.assistant c tcs :: ((requestedIds tcs).map (emitResult h) ++ l))
  | plain (m : Msg) (l : List Msg) (hm : m.isPlain = true) (hl : VShape h l) :
      VShape h (m :: l)

/-- documents carried by a message: the value list of a ToolMessage
payload, nothing for other kinds. -/
def msgDocs : Msg → List Doc
  | .toolResult c _ => c.value
  | _ => []

/-- every document reachable in the payloads of a message list. -/
def docsOf (l : List Msg) : List Doc := l.flatMap msgDocs

/-- the current turn: the messages strictly after the last HumanMessage
of the history (the whole history when it has no HumanMessage).  These
are exactly the messages the source-extraction loop of finalize_node
visits. -/
def turnSuffix (history : List Msg) : List Msg :=
  (history.reverse.takeWhile (fun m => !m.isHuman)).reverse

/-- the cleaned base name back out of an emitted citation title (which
always ends in ".pdf"). -/
def pdfStem (t : String) : String :=
  String.mk (t.toList.take (t.toList.length - 4))

/-- dedup key of an emitted citation, reconstructed from its fields. -/
def titleKeyOf (c : Citation) : String := sourceKey (pdfStem c.title) c.page

/-! ## Theorems -/

/-- C6: the orchestrator transitions from GENERATE to EXECUTE_TOOLS
(route string tools) iff the last message of the history is an Assistant
message carrying a non-empty tool_calls list; in every other case —
including tool_calls None or empty (both embedded as the empty list) and
the empty history — it transitions to FINALIZE. -/
theorem generate_routes_to_tools_iff (s : GraphState) :
    (should_continue s = "tools" ↔
      ∃ c tcs, s.history.getLast? = some (Msg.assistant c tcs) ∧ tcs ≠ []) ∧
    (should_continue s = "tools" ∨ should_continue s = "finalize") := by
  constructor
  · constructor
    · intro htools
      unfold should_continue at htools
      match hlast : s.history.getLast? with
      | none => rw [hlast] at htools; simp at htools
      | some (.system c) => rw [hlast] at htools; simp at htools
      | some (.human c) => rw [hlast] at htools; simp at htools
      | some (.toolResult c id) => rw [hlast] at htools; simp at htools
      | some (.assistant c tcs) =>
          rw [hlast] at htools
          refine ⟨c, tcs, rfl, ?_⟩
          intro habs
          subst habs
          simp at htools
    · rintro ⟨c, tcs, hlast, hne⟩
      unfold should_continue
      rw [hlast]
      simp [hne]
  · unfold should_continue
    match hlast : s.history.getLast? with
    | none => simp
    | some (.system c) => simp
    | some (.human c) => simp
    | some (.toolResult c id) => simp
    | some (.assistant c tcs) =>
        by_cases hne : tcs.isEmpty <;> simp [hne]

/-- C8: when the structured-output classification call raises, the
classifier returns the technical intent instead of propagating; on
success it returns the structured output unchanged. -/
theorem classifier_fails_closed_to_technical (e : String) (r : IntentionResponse) :
    (classify_intent (Except.error e)).intention = IntentionEnum.PREGUNTA_TECNICA ∧
    classify_intent (Except.ok r) = r :=
  ⟨rfl, rfl⟩

/-- C9: the finalizer returns the history of the input state unchanged;
only response and sources are computed. -/
theorem finalize_node_keeps_history (s : GraphState) :
    (finalize_node s).history = s.history := rfl

/-- C2 counterexample: a history whose FIRST tool-calling Assistant
message is unmatched (call id 1 has no ToolResult anywhere) while the
LAST one is matched.  The claim premise — some Assistant message has a
ToolCall with no matching ToolResult anywhere in the history — holds, yet
merge_history_with_reset discards the prior history on a changed input,
because _has_pending_tool_calls inspects only the last tool-calling
Assistant message. -/
theorem merge_discards_despite_unmatched_call :
    specUnmatchedToolCall
      [Msg.human "a",
       Msg.assistant "x" [⟨"1", "search_technical_docs", ToolArgs.other⟩],
       Msg.assistant "y" [⟨"2", "search_technical_docs", ToolArgs.other⟩],
       Msg.toolResult missingToolContent "2"] = true ∧
    merge_history_with_reset
      [Msg.human "a",
       Msg.assistant "x" [⟨"1", "search_technical_docs", ToolArgs.other⟩],
       Msg.assistant "y" [⟨"2", "search_technical_docs", ToolArgs.other⟩],
       Msg.toolResult missingToolContent "2"]
      [Msg.human "b"] ≠
      [Msg.human "a",
       Msg.assistant "x" [⟨"1", "search_technical_docs", ToolArgs.other⟩],
       Msg.assistant "y" [⟨"2", "search_technical_docs", ToolArgs.other⟩],
       Msg.toolResult missingToolContent "2"] ++ [Msg.human "b"] := by
  constructor
  · decide
  · decide

/-- C2 amended: when the prior history contains a Human message and its
LAST tool-calling Assistant message has a non-empty call id with no
ToolResult anywhere in the history (_has_pending_tool_calls), the merge
never discards the prior history: it returns it extended with the new
Human message, whether or not the new text matches the last human turn. -/
theorem merge_never_resets_with_pending_last_call (left : List Msg) (new_text : String)
    (hhuman : ∃ m ∈ left, m.isHuman = true)
    (hpending : _has_pending_tool_calls left = true) :
    merge_history_with_reset left [Msg.human new_text] =
      left ++ [Msg.human new_text] := by
  unfold merge_history_with_reset
  have hrne : ([Msg.human new_text] : List Msg) ≠ [] := by simp
  rw [if_neg hrne]
  have hfh : ([Msg.human new_text] : List Msg).find? Msg.isHuman =
      some (Msg.human new_text) := by
    simp [List.find?, Msg.isHuman]
  have hlhsome : (left.reverse.find? Msg.isHuman).isSome := by
    rw [List.find?_isSome]
    obtain ⟨m, hm, hish⟩ := hhuman
    exact ⟨m, List.mem_reverse.mpr hm, hish⟩
  match hlh : left.reverse.find? Msg.isHuman with
  | none => rw [hlh] at hlhsome; simp at hlhsome
  | some lh =>
      by_cases heq : pyStrip (Msg.human new_text).contentText = pyStrip lh.contentText
      · simp [heq, Msg.isHuman]
      · simp [heq, Msg.isHuman, hpending]

/-- C2 witness: the amended theorem applied to a concrete pending
history. -/
theorem merge_never_resets_with_pending_last_call_witness :
    merge_history_with_reset
      [Msg.human "a", Msg.assistant "x" [⟨"1", "search_technical_docs", ToolArgs.other⟩]]
      [Msg.human "b"] =
      [Msg.human "a", Msg.assistant "x" [⟨"1", "search_technical_docs", ToolArgs.other⟩]]
        ++ [Msg.human "b"] :=
  merge_never_resets_with_pending_last_call
    [Msg.human "a", Msg.assistant "x" [⟨"1", "search_technical_docs", ToolArgs.other⟩]]
    "b" ⟨Msg.human "a", by decide⟩ (by decide)

theorem processToolCall_shape (invoke : String → Except ExcInfo ToolContent)
    (k : Nat) (tc : ToolCall) :
    ∃ ct, processToolCall invoke k tc = Msg.toolResult ct (errTag tc.id k) := by
  unfold processToolCall
  by_cases hn : tc.name = ""
  · exact ⟨_, by rw [if_pos hn]⟩
  · rw [if_neg hn]
    by_cases hid : tc.id = ""
    · exact ⟨_, by rw [if_pos hid]⟩
    · rw [if_neg hid]
      by_cases hs : tc.name ≠ "search_technical_docs"
      · exact ⟨_, by rw [if_pos hs]⟩
      · rw [if_neg hs]
        have htag : errTag tc.id k = tc.id := by simp [errTag, hid]
        split
        · exact ⟨_, rfl⟩
        · split
          · exact ⟨_, rfl⟩
          · exact ⟨_, by rw [htag]⟩

theorem emittedIds_complete (invoke : String → Except ExcInfo ToolContent)
    (tcs : List ToolCall) (tc : ToolCall) (htc : tc ∈ tcs) (hid : tc.id ≠ "") :
    tc.id ∈ emittedIds (tcs.enum.map (fun p => processToolCall invoke p.1 p.2)) := by
  obtain ⟨n, hn, hget⟩ := List.mem_iff_getElem.mp htc
  have hne : n < tcs.enum.length := by
    simpa [List.enum_eq_enumFrom, List.enumFrom_length] using hn
  have henum : tcs.enum.get ⟨n, hne⟩ = (n, tc) := by
    simp [List.enum_eq_enumFrom, List.getElem_enumFrom, hget]
  have hmemmsg : processToolCall invoke n tc ∈
      tcs.enum.map (fun p => processToolCall invoke p.1 p.2) := by
    rw [List.mem_map]
    exact ⟨(n, tc), by rw [← henum]; exact List.get_mem _ _ _, rfl⟩
  obtain ⟨ct, hshape⟩ := processToolCall_shape invoke n tc
  have htag : errTag tc.id n = tc.id := by simp [errTag, hid]
  rw [hshape, htag] at hmemmsg
  unfold emittedIds
  rw [List.mem_filterMap]
  exact ⟨Msg.toolResult ct tc.id, hmemmsg, by simp [hid]⟩

/-- C3 amended: for an Assistant message with N tool calls as the last
message, custom_tool_wrapper appends exactly N ToolResult messages, the
i-th tagged with the i-th requested id when that id is non-empty and with
the synthetic tag error_i when the id is empty; no further message is
appended and the node is total (it cannot raise).  This also covers the
case where every underlying invocation fails, since the invoke oracle is
arbitrary. -/
theorem tool_wrapper_completeness (invoke : String → Except ExcInfo ToolContent)
    (h : List Msg) (c : String) (tcs : List ToolCall)
    (hlast : h.getLast? = some (Msg.assistant c tcs)) (hne : tcs ≠ []) :
    ∃ tms : List Msg,
      custom_tool_wrapper invoke h = h ++ tms ∧
      tms.length = tcs.length ∧
      ∀ i, (hi : i < tcs.length) →
        ∃ ct, tms[i]? = some (Msg.toolResult ct (errTag (tcs.get ⟨i, hi⟩).id i)) := by
  have hie : tcs.isEmpty = false := by simpa using hne
  refine ⟨tcs.enum.map (fun p => processToolCall invoke p.1 p.2), ?_, ?_, ?_⟩
  · unfold custom_tool_wrapper
    rw [hlast]
    simp only [hie, Bool.false_eq_true, if_false]
    simp
    intro a ha x hx hxid hxa
    rw [← hxa]
    exact emittedIds_complete invoke tcs x hx (by simpa using hxid)
  · simp [List.enum_eq_enumFrom, List.enumFrom_length]
  · intro i hi
    have hie2 : i < tcs.enum.length := by
      simpa [List.enum_eq_enumFrom, List.enumFrom_length] using hi
    obtain ⟨ct, hshape⟩ := processToolCall_shape invoke i (tcs.get ⟨i, hi⟩)
    refine ⟨ct, ?_⟩
    rw [List.getElem?_map]
    have henum2 : tcs.enum[i]? = some (i, tcs.get ⟨i, hi⟩) := by
      rw [List.getElem?_eq_getElem hie2]
      simp [List.enum_eq_enumFrom, List.getElem_enumFrom]
    rw [henum2]
    simpa using hshape

/-- C3 witness: the amended theorem applied to a concrete single-call
Assistant message whose invocation fails. -/
theorem tool_wrapper_completeness_witness :
    ∃ tms : List Msg,
      custom_tool_wrapper (fun _ => Except.error ⟨"TimeoutError", "slow"⟩)
        [Msg.assistant "a" [⟨"1", "search_technical_docs", ToolArgs.str "x"⟩]] =
        [Msg.assistant "a" [⟨"1", "search_technical_docs", ToolArgs.str "x"⟩]] ++ tms ∧
      tms.length = [(⟨"1", "search_technical_docs", ToolArgs.str "x"⟩ : ToolCall)].length ∧
      ∀ i, (hi : i < [(⟨"1", "search_technical_docs", ToolArgs.str "x"⟩ : ToolCall)].length) →
        ∃ ct, tms[i]? = some (Msg.toolResult ct
          (errTag ([(⟨"1", "search_technical_docs", ToolArgs.str "x"⟩ : ToolCall)].get ⟨i, hi⟩).id i)) :=
  tool_wrapper_completeness (fun _ => Except.error ⟨"TimeoutError", "slow"⟩)
    [Msg.assistant "a" [⟨"1", "search_technical_docs", ToolArgs.str "x"⟩]]
    "a" [⟨"1", "search_technical_docs", ToolArgs.str "x"⟩] rfl (by decide)

/-- C3 counterexample: a single tool call whose id is empty.  The wrapper
appends one ToolResult, but its tool_call_id is the synthetic tag error_0
rather than the originating (empty) id, so the emitted ids are not a
same-order match of the requested ids. -/
theorem tool_wrapper_empty_id_mismatch :
    custom_tool_wrapper (fun _ => Except.error ⟨"RuntimeError", "boom"⟩)
      [Msg.assistant "x" [⟨"", "search_technical_docs", ToolArgs.other⟩]] =
      [Msg.assistant "x" [⟨"", "search_technical_docs", ToolArgs.other⟩],
       Msg.toolResult (valErrorContent "Tool call ID esta vacio" "search_technical_docs")
         "error_0"] ∧
    ("error_0" : String) ≠ "" := by
  constructor
  · decide
  · decide

theorem vshape_headNotTR {h l : List Msg} (hs : VShape h l) : headNotTR l = true := by
  cases hs with
  | nil => rfl
  | block c tcs l hne hl => rfl
  | plain m l hm hl => cases m <;> simp_all [Msg.isPlain, headNotTR]

theorem vshape_validateLoop_aux (h : List Msg) :
    ∀ (n : Nat) (m : List Msg), m.length ≤ n → VShape h (validateLoop h m) := by
  intro n
  induction n with
  | zero =>
      intro m hm
      match m with
      | [] => exact (by simp [validateLoop] ; exact VShape.nil)
      | _ :: _ => simp at hm
  | succ n ih =>
      intro m hm
      match m with
      | [] => simp [validateLoop] ; exact VShape.nil
      | .assistant c tcs :: rest =>
          by_cases hne : tcs.isEmpty
          · simp only [validateLoop, hne, if_true]
            exact VShape.plain _ _ (by simp [Msg.isPlain, hne]) (ih rest (by simp at hm; omega))
          · simp only [validateLoop, hne, Bool.false_eq_true, if_false]
            refine VShape.block c tcs _ (by simpa using hne) ?_
            refine ih _ ?_
            have hd := length_dropWhile_le Msg.isToolResult rest
            simp at hm
            omega
      | .toolResult c id :: rest =>
          simp only [validateLoop]
          exact ih rest (by simp at hm; omega)
      | .system c :: rest =>
          simp only [validateLoop]
          exact VShape.plain _ _ rfl (ih rest (by simp at hm; omega))
      | .human c :: rest =>
          simp only [validateLoop]
          exact VShape.plain _ _ rfl (ih rest (by simp at hm; omega))

theorem vshape_validateLoop (h m : List Msg) : VShape h (validateLoop h m) :=
  vshape_validateLoop_aux h m.length m (Nat.le_refl _)

theorem consume_emit (f : String → ToolContent) :
    ∀ (ids : List String) (tail : List Msg),
      consumeResults ids ((ids.map (fun id => Msg.toolResult (f id) id)) ++ tail) =
        some tail := by
  intro ids
  induction ids with
  | nil => intro tail; simp [consumeResults]
  | cons id ids ih => intro tail; simp [consumeResults, ih]

theorem vshape_checkPairing {h l : List Msg} (hs : VShape h l) :
    checkPairing l = true := by
  induction hs with
  | nil => simp [checkPairing]
  | block c tcs l hne hl ih =>
      have hcons : consumeResults (requestedIds tcs)
          ((requestedIds tcs).map (emitResult h) ++ l) = some l :=
        consume_emit (resContent h) (requestedIds tcs) l
      simp only [checkPairing, hne, Bool.false_eq_true, if_false]
      rw [hcons]
      simp [vshape_headNotTR hl, ih]
  | plain m l hm hl ih =>
      cases m with
      | system c => simpa [checkPairing] using ih
      | human c => simpa [checkPairing] using ih
      | assistant c tcs =>
          have hemp : tcs.isEmpty = true := by simpa [Msg.isPlain] using hm
          simpa [checkPairing, hemp] using ih
      | toolResult c id => simp [Msg.isPlain] at hm

/-- C1: every history repaired by _validate_and_filter_history satisfies
the pairing invariant — each Assistant message carrying tool calls is
immediately followed by exactly one ToolResult per requested (non-empty)
call id, in the order the ids appear in the Assistant message, with no
intervening non-ToolResult message and no extra ToolResult after the
block; this holds for arbitrary, including malformed or truncated,
inputs. -/
theorem repair_satisfies_pairing_invariant (h : List Msg) :
    checkPairing (_validate_and_filter_history h) = true :=
  vshape_checkPairing (vshape_validateLoop h h)

theorem mem_requestedIds_ne {tcs : List ToolCall} {id : String}
    (hmem : id ∈ requestedIds tcs) : id ≠ "" := by
  unfold requestedIds at hmem
  rw [List.mem_map] at hmem
  obtain ⟨tc, htc, hid⟩ := hmem
  rw [List.mem_filter] at htc
  subst hid
  simpa using htc.2

theorem vshape_tr_mem {h l : List Msg} (hs : VShape h l) :
    ∀ ct id, Msg.toolResult ct id ∈ l → ct = resContent h id ∧ id ≠ "" := by
  induction hs with
  | nil => intro ct id hmem; simp at hmem
  | block c tcs l hne hl ih =>
      intro ct id hmem
      rw [List.mem_cons] at hmem
      rcases hmem with habs | hmem
      · simp at habs
      · rw [List.mem_append] at hmem
        rcases hmem with hmap | hl2
        · rw [List.mem_map] at hmap
          obtain ⟨id0, hid0, hemit⟩ := hmap
          unfold emitResult at hemit
          injection hemit with h1 h2
          subst h2
          exact ⟨h1.symm, mem_requestedIds_ne hid0⟩
        · exact ih ct id hl2
  | plain m l hm hl ih =>
      intro ct id hmem
      rw [List.mem_cons] at hmem
      rcases hmem with habs | hmem
      · rw [← habs] at hm
        simp [Msg.isPlain] at hm
      · exact ih ct id hmem

theorem lookup_of_mem_unique :
    ∀ (l : List Msg) (id : String) (c0 : ToolContent), id ≠ "" →
      (∀ c, Msg.toolResult c id ∈ l → c = c0) →
      (∃ c, Msg.toolResult c id ∈ l) →
      lookupToolMsg l id = some c0 := by
  intro l
  induction l with
  | nil =>
      intro id c0 _ _ hex
      obtain ⟨c, hc⟩ := hex
      simp at hc
  | cons m rest ih =>
      intro id c0 hid huniq hex
      match m with
      | .toolResult c tcid =>
          by_cases htc : tcid = id
          · subst htc
            have hc0 : c = c0 := huniq c (List.mem_cons_self _ _)
            subst hc0
            simp [lookupToolMsg, List.findSome?_cons, hid]
          · have hstep : lookupToolMsg (Msg.toolResult c tcid :: rest) id =
                lookupToolMsg rest id := by
              simp [lookupToolMsg, List.findSome?_cons, htc]
            rw [hstep]
            refine ih id c0 hid (fun c2 hc2 => huniq c2 (List.mem_cons_of_mem _ hc2)) ?_
            obtain ⟨c2, hc2⟩ := hex
            rw [List.mem_cons] at hc2
            rcases hc2 with habs | hc2
            · injection habs with h1 h2; exact absurd h2.symm htc
            · exact ⟨c2, hc2⟩
      | .system c =>
          have hstep : lookupToolMsg (Msg.system c :: rest) id = lookupToolMsg rest id := by
            simp [lookupToolMsg, List.findSome?_cons]
          rw [hstep]
          refine ih id c0 hid (fun c2 hc2 => huniq c2 (List.mem_cons_of_mem _ hc2)) ?_
          obtain ⟨c2, hc2⟩ := hex
          rw [List.mem_cons] at hc2
          rcases hc2 with habs | hc2
          · simp at habs
          · exact ⟨c2, hc2⟩
      | .human c =>
          have hstep : lookupToolMsg (Msg.human c :: rest) id = lookupToolMsg rest id := by
            simp [lookupToolMsg, List.findSome?_cons]
          rw [hstep]
          refine ih id c0 hid (fun c2 hc2 => huniq c2 (List.mem_cons_of_mem _ hc2)) ?_
          obtain ⟨c2, hc2⟩ := hex
          rw [List.mem_cons] at hc2
          rcases hc2 with habs | hc2
          · simp at habs
          · exact ⟨c2, hc2⟩
      | .assistant c tcs =>
          have hstep : lookupToolMsg (Msg.assistant c tcs :: rest) id =
              lookupToolMsg rest id := by
            simp [lookupToolMsg, List.findSome?_cons]
          rw [hstep]
          refine ih id c0 hid (fun c2 hc2 => huniq c2 (List.mem_cons_of_mem _ hc2)) ?_
          obtain ⟨c2, hc2⟩ := hex
          rw [List.mem_cons] at hc2
          rcases hc2 with habs | hc2
          · simp at habs
          · exact ⟨c2, hc2⟩

theorem dropWhile_append_of_all {α : Type} (p : α → Bool) :
    ∀ (xs ys : List α), (∀ x ∈ xs, p x = true) →
      (xs ++ ys).dropWhile p = ys.dropWhile p := by
  intro xs
  induction xs with
  | nil => intro ys _; simp
  | cons x xs ih =>
      intro ys hall
      have hx : p x = true := hall x (List.mem_cons_self _ _)
      simp only [List.cons_append, List.dropWhile_cons_of_pos hx]
      exact ih ys (fun y hy => hall y (List.mem_cons_of_mem _ hy))

theorem dropWhile_of_headNotTR {l : List Msg} (hh : headNotTR l = true) :
    l.dropWhile Msg.isToolResult = l := by
  match l with
  | [] => rfl
  | .toolResult c id :: rest => simp [headNotTR] at hh
  | .system c :: rest => simp [List.dropWhile_cons, Msg.isToolResult]
  | .human c :: rest => simp [List.dropWhile_cons, Msg.isToolResult]
  | .assistant c tcs :: rest => simp [List.dropWhile_cons, Msg.isToolResult]

theorem validateLoop_fixed (v h : List Msg) :
    ∀ l, VShape h l →
      (∀ ct id, Msg.toolResult ct id ∈ l → lookupToolMsg v id = some ct) →
      validateLoop v l = l := by
  intro l hs
  induction hs with
  | nil => intro _; simp [validateLoop]
  | block c tcs l hne hl ih =>
      intro hmem
      have hmap : (requestedIds tcs).map (emitResult v) =
          (requestedIds tcs).map (emitResult h) := by
        refine List.map_congr_left ?_
        intro id hid
        have hm : Msg.toolResult (resContent h id) id ∈
            Msg.assistant c tcs :: ((requestedIds tcs).map (emitResult h) ++ l) := by
          refine List.mem_cons_of_mem _ (List.mem_append_left _ ?_)
          rw [List.mem_map]
          exact ⟨id, hid, rfl⟩
        have hlook := hmem (resContent h id) id hm
        unfold emitResult resContent
        rw [hlook]
        rfl
      have hdrop : (((requestedIds tcs).map (emitResult h)) ++ l).dropWhile
          Msg.isToolResult = l := by
        rw [dropWhile_append_of_all]
        · exact dropWhile_of_headNotTR (vshape_headNotTR hl)
        · intro x hx
          rw [List.mem_map] at hx
          obtain ⟨id, _, hemit⟩ := hx
          rw [← hemit]
          rfl
      simp only [validateLoop, hne, Bool.false_eq_true, if_false]
      rw [hmap, hdrop]
      rw [ih (fun ct id hmm => hmem ct id
        (List.mem_cons_of_mem _ (List.mem_append_right _ hmm)))]
  | plain m l hm hl ih =>
      intro hmem
      have ihl : validateLoop v l = l :=
        ih (fun ct id hmm => hmem ct id (List.mem_cons_of_mem _ hmm))
      cases m with
      | system c => simp only [validateLoop, ihl]
      | human c => simp only [validateLoop, ihl]
      | assistant c tcs =>
          have hemp : tcs.isEmpty = true := by simpa [Msg.isPlain] using hm
          simp only [validateLoop, hemp, if_true, ihl]
      | toolResult c id => simp [Msg.isPlain] at hm

/-- C5: the repair function is idempotent — repairing an already repaired
history changes nothing, comparing messages by kind, content and
tool_call_id (structural equality of the embedded Msg). -/
theorem repair_idempotent (h : List Msg) :
    _validate_and_filter_history (_validate_and_filter_history h) =
      _validate_and_filter_history h := by
  unfold _validate_and_filter_history
  set v := validateLoop h h with hv
  have hsh : VShape h v := vshape_validateLoop h h
  refine validateLoop_fixed v h v hsh ?_
  intro ct id hmem
  obtain ⟨hct, hid⟩ := vshape_tr_mem hsh ct id hmem
  have huniq : ∀ c2, Msg.toolResult c2 id ∈ v → c2 = resContent h id :=
    fun c2 hc2 => (vshape_tr_mem hsh c2 id hc2).1
  have hlook := lookup_of_mem_unique v id (resContent h id) hid huniq ⟨ct, hmem⟩
  rw [hlook, hct]

theorem toolfree_find_false {m : Msg} (hnm : ∀ c2, m ≠ Msg.assistant c2 []) :
    (fun m => match m with
      | Msg.assistant _ tcs => tcs.isEmpty
      | _ => false) m = false := by
  cases m with
  | assistant c tcs =>
      cases tcs with
      | nil => exact absurd rfl (hnm c)
      | cons tc rest => rfl
  | system c => rfl
  | human c => rfl
  | toolResult c id => rfl

/-- C7: the answer text of finalize_node equals the content of the most
recent Assistant message with no tool calls, and the fixed fallback
string is substituted when no such message exists or when that content is
empty or whitespace-only. -/
theorem finalize_answer_extraction (s : GraphState) :
    (∀ pre c post,
      s.history = pre ++ Msg.assistant c [] :: post →
      (∀ m ∈ post, ∀ c2, m ≠ Msg.assistant c2 []) →
      (finalize_node s).response = if pyStrip c = "" then DEFAULT_ANSWER else c) ∧
    ((∀ m ∈ s.history, ∀ c2, m ≠ Msg.assistant c2 []) →
      (finalize_node s).response = DEFAULT_ANSWER) := by
  constructor
  · intro pre c post hhist hpost
    show answerText s.history = _
    unfold answerText
    rw [hhist]
    have hrev : (pre ++ Msg.assistant c [] :: post).reverse =
        post.reverse ++ Msg.assistant c [] :: pre.reverse := by
      rw [List.reverse_append, List.reverse_cons, List.append_assoc,
        List.singleton_append]
    rw [hrev, List.find?_append]
    have hnone : post.reverse.find? (fun m => match m with
        | Msg.assistant _ tcs => tcs.isEmpty
        | _ => false) = none := by
      rw [List.find?_eq_none]
      intro m hm
      have hmem : m ∈ post := List.mem_reverse.mp hm
      simp [toolfree_find_false (hpost m hmem)]
    rw [hnone]
    have hfound : (Msg.assistant c [] :: pre.reverse).find? (fun m => match m with
        | Msg.assistant _ tcs => tcs.isEmpty
        | _ => false) = some (Msg.assistant c []) :=
      List.find?_cons_of_pos _ (by rfl)
    rw [Option.none_or, hfound]
  · intro hall
    show answerText s.history = _
    unfold answerText
    have hnone : s.history.reverse.find? (fun m => match m with
        | Msg.assistant _ tcs => tcs.isEmpty
        | _ => false) = none := by
      rw [List.find?_eq_none]
      intro m hm
      have hmem : m ∈ s.history := List.mem_reverse.mp hm
      simp [toolfree_find_false (hall m hmem)]
    rw [hnone]
    simp [pyStrip]

/-- C7 witness: the characterization applied to a concrete history whose
last tool-free Assistant message holds the answer. -/
theorem finalize_answer_extraction_witness :
    (finalize_node ⟨"q", none, "", [], "",
      [Msg.human "q", Msg.assistant "ans" []]⟩).response =
      if pyStrip "ans" = "" then DEFAULT_ANSWER else "ans" :=
  (finalize_answer_extraction ⟨"q", none, "", [], "",
      [Msg.human "q", Msg.assistant "ans" []]⟩).1
    [Msg.human "q"] "ans" [] rfl (by simp)

theorem addDocs_mem (ans : String) :
    ∀ (docs : List Doc) (seen : List String) (acc : List Citation) (c : Citation),
      c ∈ (addDocs ans docs seen acc).2 →
      c ∈ acc ∨ ∃ d, d ∈ docs ∧ c = mkCitation (cleanName (sourceNameOf d)) d ∧
        strContains (lowerStr ans) (lowerStr (cleanName (sourceNameOf d))) = true := by
  intro docs
  induction docs with
  | nil =>
      intro seen acc c hc
      exact Or.inl (by simpa [addDocs] using hc)
  | cons d rest ih =>
      intro seen acc c hc
      by_cases hadm : strContains (lowerStr ans)
          (lowerStr (cleanName (sourceNameOf d))) = true
      · by_cases hseen : seen.contains
            (sourceKey (cleanName (sourceNameOf d)) d.page_number) = true
        · have hseen2 : sourceKey (cleanName (sourceNameOf d)) d.page_number ∈ seen := by
            simpa using hseen
          rw [show addDocs ans (d :: rest) seen acc = addDocs ans rest seen acc by
              simp [addDocs, hadm, hseen2]] at hc
          rcases ih seen acc c hc with hacc | ⟨d2, hd2, heq, hstr⟩
          · exact Or.inl hacc
          · exact Or.inr ⟨d2, List.mem_cons_of_mem _ hd2, heq, hstr⟩
        · have hseen2 : sourceKey (cleanName (sourceNameOf d)) d.page_number ∉ seen := by
            simpa using hseen
          rw [show addDocs ans (d :: rest) seen acc =
              addDocs ans rest
                (sourceKey (cleanName (sourceNameOf d)) d.page_number :: seen)
                (acc ++ [mkCitation (cleanName (sourceNameOf d)) d]) by
              simp [addDocs, hadm, hseen2]] at hc
          rcases ih _ _ c hc with hacc | ⟨d2, hd2, heq, hstr⟩
          · rw [List.mem_append] at hacc
            rcases hacc with hacc | hnew
            · exact Or.inl hacc
            · rw [List.mem_singleton] at hnew
              exact Or.inr ⟨d, List.mem_cons_self _ _, hnew, hadm⟩
          · exact Or.inr ⟨d2, List.mem_cons_of_mem _ hd2, heq, hstr⟩
      · rw [show addDocs ans (d :: rest) seen acc = addDocs ans rest seen acc by
            simp [addDocs, hadm]] at hc
        rcases ih seen acc c hc with hacc | ⟨d2, hd2, heq, hstr⟩
        · exact Or.inl hacc
        · exact Or.inr ⟨d2, List.mem_cons_of_mem _ hd2, heq, hstr⟩

theorem collectSources_mem (ans : String) :
    ∀ (msgs : List Msg) (seen : List String) (acc : List Citation) (c : Citation),
      c ∈ collectSources ans msgs seen acc →
      c ∈ acc ∨ ∃ d, d ∈ docsOf (msgs.takeWhile (fun m => !m.isHuman)) ∧
        c = mkCitation (cleanName (sourceNameOf d)) d ∧
        strContains (lowerStr ans) (lowerStr (cleanName (sourceNameOf d))) = true := by
  intro msgs
  induction msgs with
  | nil =>
      intro seen acc c hc
      exact Or.inl (by simpa [collectSources] using hc)
  | cons m rest ih =>
      intro seen acc c hc
      cases m with
      | human t => exact Or.inl (by simpa [collectSources] using hc)
      | toolResult ct id =>
          rw [show collectSources ans (Msg.toolResult ct id :: rest) seen acc =
              collectSources ans rest (addDocs ans ct.value seen acc).1
                (addDocs ans ct.value seen acc).2 by rfl] at hc
          have htw : (Msg.toolResult ct id :: rest).takeWhile
              (fun m => !m.isHuman) =
              Msg.toolResult ct id :: rest.takeWhile (fun m => !m.isHuman) := by
            simp [Msg.isHuman]
          rcases ih _ _ c hc with hacc | ⟨d2, hd2, heq, hstr⟩
          · rcases addDocs_mem ans ct.value seen acc c hacc with
              hacc2 | ⟨d2, hd2, heq, hstr⟩
            · exact Or.inl hacc2
            · refine Or.inr ⟨d2, ?_, heq, hstr⟩
              rw [htw]
              unfold docsOf
              rw [List.mem_flatMap]
              exact ⟨Msg.toolResult ct id, List.mem_cons_self _ _, by
                simpa [msgDocs] using hd2⟩
          · refine Or.inr ⟨d2, ?_, heq, hstr⟩
            rw [htw]
            unfold docsOf at hd2 ⊢
            rw [List.mem_flatMap] at hd2 ⊢
            obtain ⟨m2, hm2, hd22⟩ := hd2
            exact ⟨m2, List.mem_cons_of_mem _ hm2, hd22⟩
      | system t =>
          rw [show collectSources ans (Msg.system t :: rest) seen acc =
              collectSources ans rest seen acc by rfl] at hc
          rcases ih seen acc c hc with hacc | ⟨d2, hd2, heq, hstr⟩
          · exact Or.inl hacc
          · refine Or.inr ⟨d2, ?_, heq, hstr⟩
            have htw : (Msg.system t :: rest).takeWhile (fun m => !m.isHuman) =
                Msg.system t :: rest.takeWhile (fun m => !m.isHuman) := by
              simp [Msg.isHuman]
            rw [htw]
            unfold docsOf at hd2 ⊢
            rw [List.mem_flatMap] at hd2 ⊢
            obtain ⟨m2, hm2, hd22⟩ := hd2
            exact ⟨m2, List.mem_cons_of_mem _ hm2, hd22⟩
      | assistant t tcs =>
          rw [show collectSources ans (Msg.assistant t tcs :: rest) seen acc =
              collectSources ans rest seen acc by rfl] at hc
          rcases ih seen acc c hc with hacc | ⟨d2, hd2, heq, hstr⟩
          · exact Or.inl hacc
          · refine Or.inr ⟨d2, ?_, heq, hstr⟩
            have htw : (Msg.assistant t tcs :: rest).takeWhile (fun m => !m.isHuman) =
                Msg.assistant t tcs :: rest.takeWhile (fun m => !m.isHuman) := by
              simp [Msg.isHuman]
            rw [htw]
            unfold docsOf at hd2 ⊢
            rw [List.mem_flatMap] at hd2 ⊢
            obtain ⟨m2, hm2, hd22⟩ := hd2
            exact ⟨m2, List.mem_cons_of_mem _ hm2, hd22⟩

theorem pdfStem_append (cn : String) : pdfStem (cn ++ ".pdf") = cn := by
  unfold pdfStem
  have hdata : (cn ++ ".pdf").toList = cn.toList ++ ('.' :: 'p' :: 'd' :: 'f' :: []) := by
    show (cn ++ ".pdf").data = cn.data ++ ('.' :: 'p' :: 'd' :: 'f' :: [])
    rw [String.data_append]
  rw [hdata]
  have hlen : (cn.toList ++ ('.' :: 'p' :: 'd' :: 'f' :: [])).length - 4 =
      cn.toList.length := by
    simp
  rw [hlen, List.take_left' rfl]
  rfl

theorem titleKey_mkCitation (clean : String) (d : Doc) :
    titleKeyOf (mkCitation clean d) = sourceKey clean d.page_number := by
  unfold titleKeyOf mkCitation
  simp [pdfStem_append]

theorem addDocs_inv (ans : String) :
    ∀ (docs : List Doc) (seen : List String) (acc : List Citation),
      (∀ c ∈ acc, titleKeyOf c ∈ seen) →
      acc.Pairwise (fun c1 c2 => titleKeyOf c1 ≠ titleKeyOf c2) →
      (∀ c ∈ (addDocs ans docs seen acc).2,
        titleKeyOf c ∈ (addDocs ans docs seen acc).1) ∧
      (addDocs ans docs seen acc).2.Pairwise
        (fun c1 c2 => titleKeyOf c1 ≠ titleKeyOf c2) := by
  intro docs
  induction docs with
  | nil =>
      intro seen acc hmem hpw
      exact ⟨by simpa [addDocs] using hmem, by simpa [addDocs] using hpw⟩
  | cons d rest ih =>
      intro seen acc hmem hpw
      by_cases hadm : strContains (lowerStr ans)
          (lowerStr (cleanName (sourceNameOf d))) = true
      · by_cases hseen : seen.contains
            (sourceKey (cleanName (sourceNameOf d)) d.page_number) = true
        · have hseen2 : sourceKey (cleanName (sourceNameOf d)) d.page_number ∈ seen := by
            simpa using hseen
          rw [show addDocs ans (d :: rest) seen acc = addDocs ans rest seen acc by
              simp [addDocs, hadm, hseen2]]
          exact ih seen acc hmem hpw
        · have hseen2 : sourceKey (cleanName (sourceNameOf d)) d.page_number ∉ seen := by
            simpa using hseen
          rw [show addDocs ans (d :: rest) seen acc =
              addDocs ans rest
                (sourceKey (cleanName (sourceNameOf d)) d.page_number :: seen)
                (acc ++ [mkCitation (cleanName (sourceNameOf d)) d]) by
              simp [addDocs, hadm, hseen2]]
          refine ih _ _ ?_ ?_
          · intro c hc
            rw [List.mem_append] at hc
            rcases hc with hc | hc
            · exact List.mem_cons_of_mem _ (hmem c hc)
            · rw [List.mem_singleton] at hc
              rw [hc, titleKey_mkCitation]
              exact List.mem_cons_self _ _
          · rw [List.pairwise_append]
            refine ⟨hpw, List.pairwise_singleton _ _, ?_⟩
            intro c1 hc1 c2 hc2
            rw [List.mem_singleton] at hc2
            rw [hc2, titleKey_mkCitation]
            intro habs
            exact hseen2 (habs ▸ hmem c1 hc1)
      · rw [show addDocs ans (d :: rest) seen acc = addDocs ans rest seen acc by
            simp [addDocs, hadm]]
        exact ih seen acc hmem hpw

theorem collectSources_inv (ans : String) :
    ∀ (msgs : List Msg) (seen : List String) (acc : List Citation),
      (∀ c ∈ acc, titleKeyOf c ∈ seen) →
      acc.Pairwise (fun c1 c2 => titleKeyOf c1 ≠ titleKeyOf c2) →
      (collectSources ans msgs seen acc).Pairwise
        (fun c1 c2 => titleKeyOf c1 ≠ titleKeyOf c2) := by
  intro msgs
  induction msgs with
  | nil => intro seen acc _ hpw; simpa [collectSources] using hpw
  | cons m rest ih =>
      intro seen acc hmem hpw
      cases m with
      | human t => simpa [collectSources] using hpw
      | toolResult ct id =>
          rw [show collectSources ans (Msg.toolResult ct id :: rest) seen acc =
              collectSources ans rest (addDocs ans ct.value seen acc).1
                (addDocs ans ct.value seen acc).2 by rfl]
          obtain ⟨hmem2, hpw2⟩ := addDocs_inv ans ct.value seen acc hmem hpw
          exact ih _ _ hmem2 hpw2
      | system t =>
          rw [show collectSources ans (Msg.system t :: rest) seen acc =
              collectSources ans rest seen acc by rfl]
          exact ih seen acc hmem hpw
      | assistant t tcs =>
          rw [show collectSources ans (Msg.assistant t tcs :: rest) seen acc =
              collectSources ans rest seen acc by rfl]
          exact ih seen acc hmem hpw

/-- C4: every citation returned by finalize_node comes from a document of
a ToolResult of the current turn (the suffix after the most recent
HumanMessage), its cleaned name occurs case-insensitively as a substring
of the answer text, and no two returned citations share the same (title,
page) pair. -/
theorem finalize_citation_scoping (s : GraphState) :
    (∀ c ∈ (finalize_node s).sources,
      ∃ d, d ∈ docsOf (turnSuffix s.history) ∧
        c = mkCitation (cleanName (sourceNameOf d)) d ∧
        strContains (lowerStr ((finalize_node s).response))
          (lowerStr (cleanName (sourceNameOf d))) = true) ∧
    (finalize_node s).sources.Pairwise
      (fun c1 c2 => ¬(c1.title = c2.title ∧ c1.page = c2.page)) := by
  constructor
  · intro c hc
    have hmm := collectSources_mem (answerText s.history) s.history.reverse [] [] c hc
    rcases hmm with habs | ⟨d, hd, heq, hstr⟩
    · simp at habs
    · refine ⟨d, ?_, heq, hstr⟩
      unfold turnSuffix
      unfold docsOf at hd ⊢
      rw [List.mem_flatMap] at hd ⊢
      obtain ⟨m2, hm2, hd2⟩ := hd
      exact ⟨m2, List.mem_reverse.mpr hm2, hd2⟩
  · have hpw := collectSources_inv (answerText s.history) s.history.reverse [] []
      (by intro c hc; simp at hc) List.Pairwise.nil
    refine hpw.imp ?_
    intro c1 c2 hne habs
    obtain ⟨ht, hp⟩ := habs
    apply hne
    unfold titleKeyOf
    rw [ht, hp]

/-- C4 witness: the scoping theorem applied to a concrete history whose
single turn-scoped document is cited in the answer. -/
theorem finalize_citation_scoping_witness :
    ∃ d, d ∈ docsOf (turnSuffix [Msg.human "q",
        Msg.toolResult ⟨none, none, none, none, "",
          [⟨some "docs/Manual_Redes.pdf", none, some 3, none⟩]⟩ "1",
        Msg.assistant "ver Manual_Redes" []]) ∧
      (⟨"Manual_Redes.pdf", some 3, "#"⟩ : Citation) =
        mkCitation (cleanName (sourceNameOf d)) d ∧
      strContains (lowerStr ((finalize_node ⟨"q", none, "", [], "",
        [Msg.human "q",
         Msg.toolResult ⟨none, none, none, none, "",
           [⟨some "docs/Manual_Redes.pdf", none, some 3, none⟩]⟩ "1",
         Msg.assistant "ver Manual_Redes" []]⟩).response))
        (lowerStr (cleanName (sourceNameOf d))) = true :=
  (finalize_citation_scoping ⟨"q", none, "", [], "",
    [Msg.human "q",
     Msg.toolResult ⟨none, none, none, none, "",
       [⟨some "docs/Manual_Redes.pdf", none, some 3, none⟩]⟩ "1",
     Msg.assistant "ver Manual_Redes" []]⟩).1
    ⟨"Manual_Redes.pdf", some 3, "#"⟩ (by decide)

/-- C10: every citation emitted by finalize_node takes its display title
from the cleaned base name with ".pdf" appended — also when the
originating document was a .docx or had no extension — and its url is the
fixed "#" whenever the document carries no url. -/
theorem finalize_citation_title_pdf (s : GraphState) :
    ∀ c ∈ (finalize_node s).sources,
      ∃ d, d ∈ docsOf (turnSuffix s.history) ∧
        c.title = cleanName (sourceNameOf d) ++ ".pdf" ∧
        (d.url = none → c.url = "#") := by
  intro c hc
  have hmm := collectSources_mem (answerText s.history) s.history.reverse [] [] c hc
  rcases hmm with habs | ⟨d, hd, heq, _⟩
  · simp at habs
  · refine ⟨d, ?_, ?_, ?_⟩
    · unfold turnSuffix
      unfold docsOf at hd ⊢
      rw [List.mem_flatMap] at hd ⊢
      obtain ⟨m2, hm2, hd2⟩ := hd
      exact ⟨m2, List.mem_reverse.mpr hm2, hd2⟩
    · rw [heq]
      rfl
    · intro hurl
      rw [heq]
      show orElseStr d.url "#" = "#"
      rw [hurl]
      rfl

/-- C10 witness: a .docx document with no url yields a ".pdf" display
title and the "#" url. -/
theorem finalize_citation_title_pdf_witness :
    ∃ d, d ∈ docsOf (turnSuffix [Msg.human "q",
        Msg.toolResult ⟨none, none, none, none, "",
          [⟨some "a/b/Guia_SQL.docx", none, none, none⟩]⟩ "1",
        Msg.assistant "ver Guia_SQL" []]) ∧
      (⟨"Guia_SQL.pdf", none, "#"⟩ : Citation).title =
        cleanName (sourceNameOf d) ++ ".pdf" ∧
      (d.url = none → (⟨"Guia_SQL.pdf", none, "#"⟩ : Citation).url = "#") :=
  finalize_citation_title_pdf ⟨"q", none, "", [], "",
    [Msg.human "q",
     Msg.toolResult ⟨none, none, none, none, "",
       [⟨some "a/b/Guia_SQL.docx", none, none, none⟩]⟩ "1",
     Msg.assistant "ver Guia_SQL" []]⟩
    ⟨"Guia_SQL.pdf", none, "#"⟩ (by decide)

end Rodmap
